import Mathlib

/-!
Verification development for the gamma real-time IVF-PQ engine
(`src/index/gamma_index_ivfpq.cc`) and its attribute table
(`src/table/table.cc`).

The C++ code is embedded shallowly:

* Distances are modelled as `Int`.  Every property checked here is a pure
  control-flow / comparison property of the code (range filters, heap
  selection, counters, deduplication); none depends on float rounding, so an
  ordered integral carrier is faithful.
* `vid` and `docid` are modelled as `Int` (the code uses `long` / `int`).
* External collaborators (raw vector store, coarse quantizer, realtime
  inverted index, storage manager) appear as function-valued parameters:
  e.g. the coarse assignment of the vector in raw slot `p` is `assign p`,
  the value returned by the `i`-th call to `raw_vec_->GetVectorNum()`
  during one tick is `stored i`, the success of `AddKeys` is a boolean
  parameter.  This mirrors exactly what the engine code observes of them.
* The faiss bounded heap (`heap_heapify` with an extreme sentinel value and
  `heap_pop`/`heap_push` guarded by a strict comparison) keeps, of all items
  pushed into it, a best-`m` subset with ties among equal distances broken
  by heap layout.  It is modelled by the deterministic refinement
  `bestM`: sort by distance with ties broken by id, take `m`.
-/

namespace Gamma

/-- A candidate produced by a bucket scan: `(vid, distance)`. -/
abbrev Pair := Int × Int

/-- Metric selector, `faiss::METRIC_L2` or `faiss::METRIC_INNER_PRODUCT`. -/
inductive GMetric where
  | l2 : GMetric
  | innerProduct : GMetric
deriving DecidableEq

/-- Heap survival order for `faiss::CMax<float,idx_t>` (L2): smaller
distances survive; ties among equal distances broken by id. -/
def rleL2 (p q : Pair) : Prop := p.2 < q.2 ∨ (p.2 = q.2 ∧ p.1 ≤ q.1)

/-- Heap survival order for `faiss::CMin<float,idx_t>` (inner product):
larger distances survive; ties broken by id. -/
def rleIP (p q : Pair) : Prop := q.2 < p.2 ∨ (p.2 = q.2 ∧ p.1 ≤ q.1)

/-- The survival order used by the per-query result heaps, by metric. -/
def heapLe : GMetric → Pair → Pair → Prop
  | GMetric.l2 => rleL2
  | GMetric.innerProduct => rleIP

instance : DecidableRel rleL2 := fun p q =>
  inferInstanceAs (Decidable (p.2 < q.2 ∨ (p.2 = q.2 ∧ p.1 ≤ q.1)))

instance : DecidableRel rleIP := fun p q =>
  inferInstanceAs (Decidable (q.2 < p.2 ∨ (p.2 = q.2 ∧ p.1 ≤ q.1)))

instance : IsTotal Pair rleL2 :=
  ⟨fun p q => by
    unfold rleL2
    rcases lt_trichotomy p.2 q.2 with h | h | h
    · exact Or.inl (Or.inl h)
    · rcases le_total p.1 q.1 with h1 | h1
      · exact Or.inl (Or.inr ⟨h, h1⟩)
      · exact Or.inr (Or.inr ⟨h.symm, h1⟩)
    · exact Or.inr (Or.inl h)⟩

instance : IsTotal Pair rleIP :=
  ⟨fun p q => by
    unfold rleIP
    rcases lt_trichotomy p.2 q.2 with h | h | h
    · exact Or.inr (Or.inl h)
    · rcases le_total p.1 q.1 with h1 | h1
      · exact Or.inl (Or.inr ⟨h, h1⟩)
      · exact Or.inr (Or.inr ⟨h.symm, h1⟩)
    · exact Or.inl (Or.inl h)⟩

instance : IsTrans Pair rleL2 :=
  ⟨fun p q s hpq hqs => by
    unfold rleL2 at *
    rcases hpq with h | ⟨h, h1⟩ <;> rcases hqs with h' | ⟨h', h1'⟩
    · exact Or.inl (h.trans h')
    · exact Or.inl (h'.symm ▸ h)
    · exact Or.inl (h ▸ h')
    · exact Or.inr ⟨h.trans h', h1.trans h1'⟩⟩

instance : IsTrans Pair rleIP :=
  ⟨fun p q s hpq hqs => by
    unfold rleIP at *
    rcases hpq with h | ⟨h, h1⟩ <;> rcases hqs with h' | ⟨h', h1'⟩
    · exact Or.inl (h'.trans h)
    · exact Or.inl (h' ▸ h)
    · exact Or.inl (h ▸ h')
    · exact Or.inr ⟨h.trans h', h1.trans h1'⟩⟩

instance : IsAntisymm Pair rleL2 :=
  ⟨fun p q hpq hqp => by
    unfold rleL2 at *
    rcases hpq with h | ⟨h, h1⟩ <;> rcases hqp with h' | ⟨h', h1'⟩
    · exact absurd (h.trans h') (lt_irrefl _)
    · exact absurd h (h'.symm ▸ lt_irrefl _)
    · exact absurd h' (h.symm ▸ lt_irrefl _)
    · exact Prod.ext (le_antisymm h1 h1') h⟩

instance : IsAntisymm Pair rleIP :=
  ⟨fun p q hpq hqp => by
    unfold rleIP at *
    rcases hpq with h | ⟨h, h1⟩ <;> rcases hqp with h' | ⟨h', h1'⟩
    · exact absurd (h.trans h') (lt_irrefl _)
    · exact absurd h (h' ▸ lt_irrefl _)
    · exact absurd h' (h ▸ lt_irrefl _)
    · exact Prod.ext (le_antisymm h1 h1') h⟩

instance heapLeDecidable (mt : GMetric) : DecidableRel (heapLe mt) := by
  cases mt
  · exact inferInstanceAs (DecidableRel rleL2)
  · exact inferInstanceAs (DecidableRel rleIP)

instance heapLeTotal (mt : GMetric) : IsTotal Pair (heapLe mt) := by
  cases mt
  · exact inferInstanceAs (IsTotal Pair rleL2)
  · exact inferInstanceAs (IsTotal Pair rleIP)

instance heapLeTrans (mt : GMetric) : IsTrans Pair (heapLe mt) := by
  cases mt
  · exact inferInstanceAs (IsTrans Pair rleL2)
  · exact inferInstanceAs (IsTrans Pair rleIP)

instance heapLeAntisymm (mt : GMetric) : IsAntisymm Pair (heapLe mt) := by
  cases mt
  · exact inferInstanceAs (IsAntisymm Pair rleL2)
  · exact inferInstanceAs (IsAntisymm Pair rleIP)

/-- Net effect of a faiss bounded result heap of capacity `m` on the stream
of items pushed into it: the `m` best survive.  Determinized by sorting with
the (tie-breaking) survival order and taking the first `m`. -/
def bestM {α : Type} (r : α → α → Prop) [DecidableRel r] (m : Nat) (l : List α) :
    List α :=
  (List.insertionSort r l).take m

/-! ## The probe-scan stage of `GammaIVFPQIndex::search_preassigned`
(gamma_index_ivfpq.cc lines 625-760).

A probe is observed by the loop through `scan_one_list` as a pair: the
bucket's code count (its return value, accumulated into `nscan`) and the
`(vid, dis)` candidates its scan pushes into the supplied recall heap.
A probe with `key < 0` or an empty bucket contributes `(0, [])`. -/

/-- One inverted-list probe: `(list_size, pushed candidates)`. -/
abbrev Probe := Nat × List Pair

/-- Mode-0 probe loop (lines 686-692): scan probes in order, accumulating
`nscan`; after each probe, `if (max_codes && nscan >= max_codes) break`.
Returns the pushed candidates and the number of probes scanned. -/
def scanProbesMode0 (maxCodes : Nat) : Nat → List Probe → List Pair × Nat
  | _, [] => ([], 0)
  | nscan, p :: rest =>
    if maxCodes ≠ 0 ∧ maxCodes ≤ nscan + p.1 then (p.2, 1)
    else
      let r := scanProbesMode0 maxCodes (nscan + p.1) rest
      (p.2 ++ r.1, r.2 + 1)

/-- Mode-1 probe loop for one thread (lines 708-715): every probe assigned
to the thread is scanned into its local heap; the loop body carries no
`max_codes` test (source comment: the test cannot be done here). -/
def scanProbesMode1 : List Probe → List Pair × Nat
  | [] => ([], 0)
  | p :: rest =>
    let r := scanProbesMode1 rest
    (p.2 ++ r.1, r.2 + 1)

/-- Per-query recall-stage result of `search_preassigned` with
`parallel_mode == 0`: one recall heap of capacity `recallNum` receives every
candidate the (possibly `max_codes`-truncated) probe loop pushes. -/
def searchPreassignedMode0 (mt : GMetric) (recallNum maxCodes : Nat)
    (probes : List Probe) : List Pair :=
  bestM (heapLe mt) recallNum (scanProbesMode0 maxCodes 0 probes).1

/-- Per-query recall-stage result of `search_preassigned` with
`parallel_mode == 1`: the probes are partitioned among threads (`parts`),
each thread scans its probes into a thread-local heap of capacity
`recallNum` (lines 699-715), and the local heaps are merged into the shared
recall heap by `heap_addn` under the critical section (lines 734-745). -/
def searchPreassignedMode1 (mt : GMetric) (recallNum : Nat)
    (parts : List (List Probe)) : List Pair :=
  bestM (heapLe mt) recallNum
    ((parts.map (fun th => bestM (heapLe mt) recallNum (scanProbesMode1 th).1)).flatten)

/-! ## The rerank / range-filter stage (`compute_dis`, lines 426-496, and
`search_impl` inside `SearchDirectly`, lines 826-885). -/

/-- The range predicate of `compute_dis` (lines 446-448 and 487-489):
`((min_dist >= 0 && dis >= min_dist) && (max_dist >= 0 && dis <= max_dist))
|| (min_dist == -1 && max_dist == -1)`. -/
def rangeKeep (minDist maxDist dis : Int) : Prop :=
  ((0 ≤ minDist ∧ minDist ≤ dis) ∧ (0 ≤ maxDist ∧ dis ≤ maxDist)) ∨
    (minDist = -1 ∧ maxDist = -1)

instance (minDist maxDist dis : Int) : Decidable (rangeKeep minDist maxDist dis) :=
  inferInstanceAs (Decidable (_ ∨ _))

/-- The `has_rank == true` branch of `compute_dis` (lines 431-477): for each
recall candidate with vid not `-1`, recompute the exact distance from the raw
vector (`exactDis`), and push `(vid, dis)` into the final heap only when the
range predicate holds.  The list returned holds exactly the pairs offered to
`heap_push`; the heap and the final reorder only permute or drop them. -/
def rankStagePush (minDist maxDist : Int) (exactDis : Int → Int) :
    List Int → List Pair
  | [] => []
  | v :: rest =>
    if v = -1 then rankStagePush minDist maxDist exactDis rest
    else if rangeKeep minDist maxDist (exactDis v) then
      (v, exactDis v) :: rankStagePush minDist maxDist exactDis rest
    else rankStagePush minDist maxDist exactDis rest

/-- The `has_rank == false` branch of `compute_dis` (lines 480-495): walk the
recall slots with a running write cursor `i`; skip vid `-1`; for a candidate
passing the range predicate write `(dis, vid)` at offset `i` of the
per-query `simi`/`idxi` arrays and increment `i`.  Returns the performed
writes as `(write index, (vid, dis))`. -/
def noRankWrites (minDist maxDist : Int) : List Pair → Nat → List (Nat × Pair)
  | [], _ => []
  | q :: rest, i =>
    if q.1 = -1 then noRankWrites minDist maxDist rest i
    else if rangeKeep minDist maxDist q.2 then
      (i, q) :: noRankWrites minDist maxDist rest (i + 1)
    else noRankWrites minDist maxDist rest i

/-- The filter `(nr && not nr->Has(docid))` of `search_impl`: with no range
result present nothing is excluded, otherwise docids it lacks are. -/
def nrExcluded (nr : Option (Int → Bool)) (docid : Int) : Bool :=
  match nr with
  | some has => !(has docid)
  | none => false

/-- The scan filter of `search_impl` in `SearchDirectly` (lines 826-885):
skip a vid whose docid is tombstoned or outside the numeric-range result;
then, only when `ck_dis = (min_dist >= 0 && max_dist >= 0)` holds, skip
distances outside `[min_dist, max_dist]`; surviving pairs are pushed into
the heap.  The input carries `(vid, dis)` with `dis` the exact distance the
loop computes for that vid. -/
def searchImplKeeps (minDist maxDist : Int) (deleted : Int → Bool)
    (nr : Option (Int → Bool)) (vid2docid : Int → Int) : List Pair → List Pair
  | [] => []
  | q :: rest =>
    if deleted (vid2docid q.1) || nrExcluded nr (vid2docid q.1) then
      searchImplKeeps minDist maxDist deleted nr vid2docid rest
    else if (0 ≤ minDist ∧ 0 ≤ maxDist) ∧ (q.2 < minDist ∨ maxDist < q.2) then
      searchImplKeeps minDist maxDist deleted nr vid2docid rest
    else
      q :: searchImplKeeps minDist maxDist deleted nr vid2docid rest

/-! ## Result remapping in `GammaIVFPQIndex::Search` (lines 1002-1035).

Per query the loop walks the `topn` result slots (holding `(vid, dist)`),
skips vid `-1`, resolves `vid → docid` through `raw_vec_->vid2docid_`,
keeps only docids not seen before (`docid2count`), writes the kept pairs
compactly from slot 0 (`pos`), and finally pads slots `pos..topn-1` with
`(-1, -1)`.  The in-place writes always land at `pos ≤ j`, at or before the
slot currently read, so reads are unaffected and the loop equals the pure
recursion below. -/

/-- The walk of the `topn` slots with the `docid2count` dedup set. -/
def searchRemapKept (vid2docid : Int → Int) : List Pair → List Int → List (Int × Int)
  | [], _ => []
  | q :: rest, seen =>
    if q.1 = -1 then searchRemapKept vid2docid rest seen
    else if vid2docid q.1 ∈ seen then searchRemapKept vid2docid rest seen
    else (vid2docid q.1, q.2) :: searchRemapKept vid2docid rest (vid2docid q.1 :: seen)

/-- The full remap of one query's result slots: kept `(docid, dist)` pairs
compacted to the front, tail padded with `(-1, -1)`. -/
def searchRemap (vid2docid : Int → Int) (topn : Nat) (slots : List Pair) :
    List (Int × Int) :=
  searchRemapKept vid2docid slots [] ++
    List.replicate (topn - (searchRemapKept vid2docid slots []).length) (-1, -1)

/-- Specification-side reference function (from the spec's words, for
comparison only): resolve the non-`-1` vids in slot order and keep the
first occurrence of every docid. -/
def firstOccurrences : List Int → List Int → List Int
  | [], _ => []
  | a :: rest, seen =>
    if a ∈ seen then firstOccurrences rest seen
    else a :: firstOccurrences rest (a :: seen)

/-! ## Training, ingestion and the realtime tick. -/

namespace GammaIVFPQIndex

/-- Observable outcome of `GammaIVFPQIndex::Indexing`: the returned code,
the `is_trained` flag afterwards, and — when training ran — the
`(start, num)` range handed to `GetVectorHeader` and `train`. -/
structure IndexingResult where
  ret : Int
  isTrainedAfter : Bool
  trainedRange : Option (Nat × Nat)
deriving DecidableEq

/-- `GammaIVFPQIndex::Indexing` (lines 122-159): skip when already trained;
fail when the raw store holds fewer than 8192 vectors; otherwise train on
`GetVectorHeader(0, num)` with `num = count > 100000 ? 100000 : count`. -/
def Indexing (isTrained : Bool) (vectorsCount : Nat) : IndexingResult :=
  if isTrained then ⟨0, true, none⟩
  else if vectorsCount < 8192 then ⟨-1, false, none⟩
  else ⟨0, true, some (0, if vectorsCount > 100000 then 100000 else vectorsCount)⟩

/-- The grouping loop of `GammaIVFPQIndex::Add` (lines 334-355): walk the
coarse assignments; a negative key counts as ignored and gets no vid; a
non-negative key is appended to its group with the running vid, which then
advances.  Returns `(n_ignore, final vid, grouped (key, vid) entries)`. -/
def addAssignLoop : List Int → Nat → Nat × Nat × List (Int × Nat)
  | [], vid => (0, vid, [])
  | key :: rest, vid =>
    if key < 0 then
      let r := addAssignLoop rest vid
      (r.1 + 1, r.2.1, r.2.2)
    else
      let r := addAssignLoop rest (vid + 1)
      (r.1, r.2.1, (key, vid) :: r.2.2)

/-- `GammaIVFPQIndex::Add` (lines 305-373): group the batch by coarse key,
hand the groups to `rt_invert_index_ptr_->AddKeys` (success is the external
boolean `addKeysOk`), and only on success commit `indexed_vec_count_ = vid`.
Returns `(success, indexed_vec_count_ afterwards)`. -/
def Add (indexedVecCount : Nat) (keys : List Int) (addKeysOk : Bool) : Bool × Nat :=
  let r := addAssignLoop keys indexedVecCount
  if addKeysOk then (true, r.2.1) else (false, indexedVecCount)

/-- What the engine observes of its collaborators during one tick of
`AddRTVecsToIndex`: `stored i` is the value of the `i`-th call to
`raw_vec_->GetVectorNum()` (call 0 at entry, calls 1,2,... inside the
compaction loop), `assign p` the coarse key the quantizer gives the vector
in raw slot `p`, `addKeysOk i` the success of the `i`-th batch's `AddKeys`,
`removed b` the count `CompactBucket(b)` returns, `compactable` the result
of `Compactable(delete_num)`, and `nlist` the bucket count. -/
structure TickEnv where
  stored : Nat → Nat
  assign : Nat → Int
  addKeysOk : Nat → Bool
  removed : Nat → Nat
  compactable : Bool
  nlist : Nat

/-- Engine-local state touched by one tick, plus two observation logs:
`updateLog` records the vids drained to `rt_invert_index_ptr_->Update`, and
`compactLog` the buckets passed to `CompactBucket`, in call order. -/
structure TickState where
  indexedVecCount : Nat
  compaction : Bool
  compactBucketNo : Nat
  compactedNum : Nat
  updatedNum : Nat
  updatedQueue : List Int
  updateLog : List Int
  compactLog : List Nat
deriving DecidableEq

/-- The compaction loop of `AddRTVecsToIndex` (lines 200-205):
`for (; compact_bucket_no_ < nlist; compact_bucket_no_++) { if
(GetVectorNum() > indexed_vec_count_) break; CompactBucket(...); }`.
`fuel` is `nlist - bno`; returns the final cursor and the compacted
buckets in order. -/
def compactLoop (indexed : Nat) (stored : Nat → Nat) :
    Nat → Nat → Nat → Nat × List Nat
  | 0, bno, _ => (bno, [])
  | fuel + 1, bno, readIdx =>
    if indexed < stored readIdx then (bno, [])
    else
      let r := compactLoop indexed stored fuel (bno + 1) (readIdx + 1)
      (r.1, bno :: r.2)

/-- The catch-up ingest branch of `AddRTVecsToIndex` (lines 215-251):
`index_count` batches; batch `i` starts at the current
`indexed_vec_count_`, its size is 1000 except for the last batch which
covers the remainder; each batch calls `Add`; a failed batch sets the
return code to `-2` but the loop continues.  Returns the final
`indexed_vec_count_` and the return code. -/
def ingestBatches (env : TickEnv) (stored0 indexCount indexed0 : Nat) : Nat × Int :=
  (List.range indexCount).foldl
    (fun acc i =>
      let countPerIndex := if i = indexCount - 1 then stored0 - acc.1 else 1000
      let keys := (List.range' acc.1 countPerIndex).map env.assign
      let r := Add acc.1 keys (env.addKeysOk i)
      (r.2, if r.1 then acc.2 else -2))
    (indexed0, 0)

/-- `GammaIVFPQIndex::AddUpdatedVecToIndex` (lines 259-303): dequeue at most
20000 vids, re-assign and re-encode each and call `Update`; advance
`updated_num_`.  Always returns 0 (both return statements are `return 0`). -/
def AddUpdatedVecToIndex (s : TickState) : Int × TickState :=
  if (s.updatedQueue.take 20000).isEmpty then (0, s)
  else
    (0, { s with
      updatedQueue := s.updatedQueue.drop 20000,
      updatedNum := s.updatedNum + (s.updatedQueue.take 20000).length,
      updateLog := s.updateLog ++ s.updatedQueue.take 20000 })

/-- The loop call of the compaction branch: runs the compaction loop from
the saved cursor when compaction is active (already running, or
`Compactable(delete_num)` turns it on this tick), else leaves the cursor
where it is and compacts nothing. -/
def compactRun (env : TickEnv) (s : TickState) : Nat × List Nat :=
  if s.compaction || env.compactable then
    compactLoop s.indexedVecCount env.stored (env.nlist - s.compactBucketNo)
      s.compactBucketNo 1
  else (s.compactBucketNo, [])

/-- The compaction branch of `AddRTVecsToIndex` (lines 186-214), entered
when `indexed_vec_count_ == total_stored_vecs`: run the loop (when
active), accumulate `compacted_num_`, and — whenever the cursor then
equals `nlist` — reset `compaction_` to false and the cursor to 0. -/
def compactionTick (env : TickEnv) (s : TickState) : TickState :=
  if (compactRun env s).1 = env.nlist then
    { s with
      compaction := false,
      compactBucketNo := 0,
      compactedNum := s.compactedNum + ((compactRun env s).2.map env.removed).sum,
      compactLog := s.compactLog ++ (compactRun env s).2 }
  else
    { s with
      compaction := s.compaction || env.compactable,
      compactBucketNo := (compactRun env s).1,
      compactedNum := s.compactedNum + ((compactRun env s).2.map env.removed).sum,
      compactLog := s.compactLog ++ (compactRun env s).2 }

/-- The branch selection of `AddRTVecsToIndex` (lines 176-251) before the
update drain: the invariant check, the compaction branch, and the catch-up
ingest branch. -/
def tickMain (env : TickEnv) (s : TickState) : Int × TickState :=
  if env.stored 0 < s.indexedVecCount then (-1, s)
  else if s.indexedVecCount = env.stored 0 then (0, compactionTick env s)
  else
    ((ingestBatches env (env.stored 0)
        ((env.stored 0 - s.indexedVecCount) / 1000 + 1) s.indexedVecCount).2,
     { s with indexedVecCount :=
        (ingestBatches env (env.stored 0)
          ((env.stored 0 - s.indexedVecCount) / 1000 + 1) s.indexedVecCount).1 })

/-- `GammaIVFPQIndex::AddRTVecsToIndex` (lines 174-257): branch selection
followed by the unconditional update drain; the drain's return value is
always 0, so the branch's return code is what the tick returns. -/
def AddRTVecsToIndex (env : TickEnv) (s : TickState) : Int × TickState :=
  ((tickMain env s).1, (AddUpdatedVecToIndex (tickMain env s).2).2)

end GammaIVFPQIndex

/-! ## The attribute table (`table.cc`). -/

namespace Table

/-- Observable state of a `Table` as `Table::Add` touches it: the
`item_to_docid_` map (association list, newest first), the records appended
to the storage manager, `last_docid_`, and the schema's field count
(`attr_idx_map_.size()`). -/
structure TableState where
  itemToDocid : List (Int × Int)
  storage : List (List String)
  lastDocid : Int
  fieldCount : Nat
deriving DecidableEq

/-- `Table::Add` (table.cc lines 210-273): reject a field-count mismatch
with `-2`, then an empty key with `-3`, both before touching anything; only
then insert `key → docid`, append the packed record, and set
`last_docid_ = docid`.  `keyToInt` models the two key encodings
(`StringToInt64` when `id_type_ == 0`, the raw 8-byte copy otherwise);
the packed record is modelled by its field values. -/
def Add (keyToInt : String → Int) (t : TableState) (key : String)
    (fields : List String) (docid : Int) : Int × TableState :=
  if fields.length ≠ t.fieldCount then (-2, t)
  else if key.length = 0 then (-3, t)
  else
    (0, { t with
      itemToDocid := (keyToInt key, docid) :: t.itemToDocid,
      storage := t.storage ++ [fields],
      lastDocid := docid })

end Table

/-! ## Supporting lemmas. -/

section BestM

variable {α : Type} (r : α → α → Prop) [DecidableRel r]
variable [IsTotal α r] [IsTrans α r] [IsAntisymm α r]

omit [IsTotal α r] [IsTrans α r] [IsAntisymm α r] in
theorem bestM_coe_le (m : Nat) (l : List α) :
    (↑(bestM r m l) : Multiset α) ≤ ↑l := by
  have h1 : (bestM r m l).Subperm (List.insertionSort r l) :=
    (List.take_sublist m _).subperm
  have h2 : (↑(List.insertionSort r l) : Multiset α) = ↑l :=
    Multiset.coe_eq_coe.mpr (List.perm_insertionSort r l)
  calc (↑(bestM r m l) : Multiset α)
      ≤ ↑(List.insertionSort r l) := Multiset.coe_le.mpr h1
    _ = ↑l := h2

theorem insertionSort_congr {l l' : List α} (h : l.Perm l') :
    List.insertionSort r l = List.insertionSort r l' :=
  List.eq_of_perm_of_sorted
    ((List.perm_insertionSort r l).trans (h.trans (List.perm_insertionSort r l').symm))
    (List.sorted_insertionSort r l) (List.sorted_insertionSort r l')

theorem bestM_congr (m : Nat) {l l' : List α} (h : l.Perm l') :
    bestM r m l = bestM r m l' := by
  unfold bestM
  rw [insertionSort_congr r h]

/-- Core selection lemma: if `S` sits between the best `m` of `T` and all of
`T` (as multisets), then selecting the best `m` from `S` gives exactly the
best `m` of `T`. -/
theorem bestM_eq_of_between (m : Nat) {S T : List α}
    (hST : (↑S : Multiset α) ≤ ↑T)
    (hTop : (↑(bestM r m T) : Multiset α) ≤ ↑S) :
    bestM r m S = bestM r m T := by
  classical
  set sT := List.insertionSort r T with hsTdef
  set u := sT.take m with hudef
  set dT := sT.drop m with hdTdef
  have hTperm : (↑sT : Multiset α) = ↑T :=
    Multiset.coe_eq_coe.mpr (List.perm_insertionSort r T)
  have hsplitL : u ++ dT = sT := by rw [hudef, hdTdef, List.take_append_drop]
  have hsplit : (↑u : Multiset α) + ↑dT = ↑T := by
    rw [← hTperm, Multiset.coe_add, hsplitL]
  have huS : (↑u : Multiset α) ≤ ↑S := hTop
  set R : Multiset α := (↑S : Multiset α) - ↑u with hRdef
  have hSR : (↑u : Multiset α) + R = ↑S := add_tsub_cancel_of_le huS
  have hRdT : R ≤ (↑dT : Multiset α) := by
    have h1 : (↑S : Multiset α) - ↑u ≤ ↑T - ↑u := tsub_le_tsub_right hST _
    have h2 : (↑T : Multiset α) - ↑u = ↑dT := by
      rw [← hsplit, add_tsub_cancel_left]
    rw [hRdef, ← h2]
    exact h1
  set rL := R.sort r with hrLdef
  have hrLR : (↑rL : Multiset α) = R := Multiset.sort_eq r R
  have hsTsorted : List.Sorted r sT := List.sorted_insertionSort r T
  have hudTsorted : List.Sorted r (u ++ dT) := by
    rw [hsplitL]
    exact hsTsorted
  have hparts : List.Sorted r u ∧ List.Sorted r dT ∧ ∀ a ∈ u, ∀ b ∈ dT, r a b := by
    rw [List.Sorted, List.pairwise_append] at hudTsorted
    exact hudTsorted
  have hurL : List.Sorted r (u ++ rL) := by
    rw [List.Sorted, List.pairwise_append]
    refine ⟨hparts.1, Multiset.sort_sorted r R, ?_⟩
    intro a ha b hb
    have hbR : b ∈ R := by
      rw [← hrLR]
      exact Multiset.mem_coe.mpr hb
    have hbdT : b ∈ dT := Multiset.mem_coe.mp (Multiset.mem_of_le hRdT hbR)
    exact hparts.2.2 a ha b hbdT
  have hSperm : (↑(List.insertionSort r S) : Multiset α) = ↑(u ++ rL) := by
    have h3 : (↑(List.insertionSort r S) : Multiset α) = ↑S :=
      Multiset.coe_eq_coe.mpr (List.perm_insertionSort r S)
    rw [h3, ← Multiset.coe_add, hrLR, hSR]
  have hSsort : List.insertionSort r S = u ++ rL :=
    List.eq_of_perm_of_sorted (Multiset.coe_eq_coe.mp hSperm)
      (List.sorted_insertionSort r S) hurL
  show (List.insertionSort r S).take m = u
  rw [hSsort, List.take_append_eq_append_take]
  have hulen : u.length ≤ m := by
    rw [hudef, List.length_take]
    exact min_le_left _ _
  rw [List.take_of_length_le hulen]
  rcases le_or_lt m sT.length with hm | hm
  · have hl : u.length = m := by
      rw [hudef, List.length_take]
      exact min_eq_left hm
    rw [hl, Nat.sub_self, List.take_zero, List.append_nil]
  · have hdTnil : dT = [] := by
      rw [hdTdef]
      exact List.drop_eq_nil_of_le hm.le
    have hR0 : R = 0 := by
      have := hRdT
      rw [hdTnil] at this
      exact Multiset.le_zero.mp this
    have hrLnil : rL = [] := by
      have h := hrLR
      rw [hR0] at h
      exact (Multiset.coe_eq_zero rL).mp h
    rw [hrLnil, List.take_nil, List.append_nil]

/-- Pre-selecting the best `m` of the left part before a final best-`m`
selection does not change the outcome. -/
theorem bestM_append_left (m : Nat) (a b : List α) :
    bestM r m (bestM r m a ++ b) = bestM r m (a ++ b) := by
  classical
  apply bestM_eq_of_between
  · rw [← Multiset.coe_add, ← Multiset.coe_add]
    exact add_le_add_right (bestM_coe_le r m a) _
  · -- the global best m is contained in (best m of a) ++ b
    set sa := List.insertionSort r a with hsadef
    set da := sa.drop m with hdadef
    set sT := List.insertionSort r (a ++ b) with hsTdef
    set top := sT.take m with htopdef
    set dT := sT.drop m with hdTdef
    have hsub : sa.Sublist sT := by
      apply List.sublist_of_subperm_of_sorted _ (List.sorted_insertionSort r a)
        (List.sorted_insertionSort r (a ++ b))
      apply Multiset.coe_le.mp
      have h1 : (↑sa : Multiset α) = ↑a := Multiset.coe_eq_coe.mpr (List.perm_insertionSort r a)
      have h2 : (↑sT : Multiset α) = ↑(a ++ b) :=
        Multiset.coe_eq_coe.mpr (List.perm_insertionSort r (a ++ b))
      rw [h1, h2, ← Multiset.coe_add]
      exact self_le_add_right _ _
    have hdsub : da.Sublist dT := hsub.drop m
    have hdle : (↑da : Multiset α) ≤ ↑dT := Multiset.coe_le.mpr hdsub.subperm
    have hE : (↑top : Multiset α) + ↑dT = ↑(bestM r m a) + (↑da + ↑b) := by
      have e1 : top ++ dT = sT := by rw [htopdef, hdTdef, List.take_append_drop]
      have e2 : bestM r m a ++ da = sa := by
        show sa.take m ++ da = sa
        rw [hdadef, List.take_append_drop]
      calc (↑top : Multiset α) + ↑dT
          = ↑(top ++ dT) := Multiset.coe_add _ _
        _ = ↑sT := by rw [e1]
        _ = ↑(a ++ b) := Multiset.coe_eq_coe.mpr (List.perm_insertionSort r (a ++ b))
        _ = ↑a + ↑b := (Multiset.coe_add _ _).symm
        _ = ↑sa + ↑b := by
              rw [Multiset.coe_eq_coe.mpr (List.perm_insertionSort r a)]
        _ = ↑(bestM r m a ++ da) + ↑b := by rw [← e2]
        _ = ↑(bestM r m a) + (↑da + ↑b) := by
              rw [← Multiset.coe_add, add_assoc]
    rw [← Multiset.coe_add]
    show (↑top : Multiset α) ≤ ↑(bestM r m a) + ↑b
    rw [Multiset.le_iff_count]
    intro x
    have ecount := congrArg (Multiset.count x) hE
    simp only [Multiset.count_add] at ecount
    have hdcount := Multiset.count_le_of_le x hdle
    simp only [Multiset.count_add]
    omega

/-- Symmetric version of `bestM_append_left` for the right part. -/
theorem bestM_append_right (m : Nat) (a b : List α) :
    bestM r m (a ++ bestM r m b) = bestM r m (a ++ b) := by
  calc bestM r m (a ++ bestM r m b)
      = bestM r m (bestM r m b ++ a) := bestM_congr r m List.perm_append_comm
    _ = bestM r m (b ++ a) := bestM_append_left r m b a
    _ = bestM r m (a ++ b) := bestM_congr r m List.perm_append_comm

/-- Merging per-chunk best-`m` selections and re-selecting gives the global
best `m`: the heart of the parallel-mode agreement property. -/
theorem bestM_flatten_map (m : Nat) (chunks : List (List α)) :
    bestM r m ((chunks.map (bestM r m)).flatten) = bestM r m chunks.flatten := by
  induction chunks with
  | nil => rfl
  | cons c cs ih =>
      simp only [List.map_cons, List.flatten_cons]
      rw [bestM_append_left]
      rw [← bestM_append_right r m c ((cs.map (bestM r m)).flatten)]
      rw [ih]
      rw [bestM_append_right]

end BestM

theorem scanProbesMode1_eq (probes : List Probe) :
    scanProbesMode1 probes = ((probes.map Prod.snd).flatten, probes.length) := by
  induction probes with
  | nil => rfl
  | cons p rest ih => simp [scanProbesMode1, ih]

theorem scanProbesMode0_no_limit (probes : List Probe) :
    ∀ nscan, scanProbesMode0 0 nscan probes = ((probes.map Prod.snd).flatten, probes.length) := by
  induction probes with
  | nil => intro nscan; rfl
  | cons p rest ih =>
      intro nscan
      simp [scanProbesMode0, ih]

theorem scanProbesMode0_count_le (maxCodes : Nat) (hmc : maxCodes ≠ 0) :
    ∀ (probes : List Probe) (nscan j : Nat), nscan < maxCodes →
      maxCodes ≤ nscan + (((probes.take j).map Prod.fst).sum) →
      (scanProbesMode0 maxCodes nscan probes).2 ≤ j := by
  intro probes
  induction probes with
  | nil => intro nscan j _ _; simp [scanProbesMode0]
  | cons p rest ih =>
      intro nscan j hlt hsum
      cases j with
      | zero =>
          simp only [List.take_zero, List.map_nil, List.sum_nil, Nat.add_zero] at hsum
          omega
      | succ j' =>
          simp only [List.take_succ_cons, List.map_cons, List.sum_cons] at hsum
          by_cases hbr : maxCodes ≤ nscan + p.1
          · simp [scanProbesMode0, hmc, hbr]
          · have h1 : ¬(maxCodes ≠ 0 ∧ maxCodes ≤ nscan + p.1) := by
              intro h
              exact hbr h.2
            simp only [scanProbesMode0, if_neg h1]
            have := ih (nscan + p.1) j' (by omega) (by omega)
            omega

theorem flatten_map_snd (parts : List (List Probe)) :
    (parts.map (fun th => (th.map Prod.snd).flatten)).flatten
      = (parts.flatten.map Prod.snd).flatten := by
  induction parts with
  | nil => rfl
  | cons t ts ih => simp [List.map_append, List.flatten_append, ih]

theorem searchPreassignedMode1_eq (mt : GMetric) (m : Nat) (parts : List (List Probe)) :
    searchPreassignedMode1 mt m parts
      = bestM (heapLe mt) m ((parts.flatten.map Prod.snd).flatten) := by
  unfold searchPreassignedMode1
  simp only [scanProbesMode1_eq]
  have h1 : (parts.map (fun th => (th.map Prod.snd).flatten)).map (bestM (heapLe mt) m)
      = parts.map (fun th => bestM (heapLe mt) m ((th.map Prod.snd).flatten)) := by
    rw [List.map_map]
    rfl
  rw [← h1, bestM_flatten_map, flatten_map_snd]

theorem rankStagePush_keeps (minDist maxDist : Int) (exactDis : Int → Int) :
    ∀ recallIds, ∀ p ∈ rankStagePush minDist maxDist exactDis recallIds,
      rangeKeep minDist maxDist p.2 := by
  intro recallIds
  induction recallIds with
  | nil => intro p hp; cases hp
  | cons v rest ih =>
      intro p hp
      by_cases hv : v = -1
      · rw [rankStagePush, if_pos hv] at hp
        exact ih p hp
      · rw [rankStagePush, if_neg hv] at hp
        by_cases hr : rangeKeep minDist maxDist (exactDis v)
        · rw [if_pos hr] at hp
          rcases List.mem_cons.mp hp with h | h
          · rw [h]
            exact hr
          · exact ih p h
        · rw [if_neg hr] at hp
          exact ih p hp

theorem noRankWrites_keeps (minDist maxDist : Int) :
    ∀ slots i, ∀ w ∈ noRankWrites minDist maxDist slots i,
      rangeKeep minDist maxDist w.2.2 := by
  intro slots
  induction slots with
  | nil => intro i w hw; cases hw
  | cons p rest ih =>
      intro i w hw
      by_cases hv : p.1 = -1
      · rw [noRankWrites, if_pos hv] at hw
        exact ih i w hw
      · rw [noRankWrites, if_neg hv] at hw
        by_cases hr : rangeKeep minDist maxDist p.2
        · rw [if_pos hr] at hw
          rcases List.mem_cons.mp hw with h | h
          · rw [h]
            exact hr
          · exact ih (i + 1) w h
        · rw [if_neg hr] at hw
          exact ih i w hw

theorem searchImplKeeps_keeps (minDist maxDist : Int) (deleted : Int → Bool)
    (nr : Option (Int → Bool)) (vid2docid : Int → Int) :
    ∀ cands, ∀ p ∈ searchImplKeeps minDist maxDist deleted nr vid2docid cands,
      0 ≤ minDist → 0 ≤ maxDist → minDist ≤ p.2 ∧ p.2 ≤ maxDist := by
  intro cands
  induction cands with
  | nil => intro p hp; cases hp
  | cons q rest ih =>
      intro p hp hmin hmax
      by_cases hdel : (deleted (vid2docid q.1) || nrExcluded nr (vid2docid q.1)) = true
      · rw [searchImplKeeps, if_pos hdel] at hp
        exact ih p hp hmin hmax
      · rw [searchImplKeeps, if_neg hdel] at hp
        by_cases hr : (0 ≤ minDist ∧ 0 ≤ maxDist) ∧ (q.2 < minDist ∨ maxDist < q.2)
        · rw [if_pos hr] at hp
          exact ih p hp hmin hmax
        · rw [if_neg hr] at hp
          rcases List.mem_cons.mp hp with h | h
          · rw [h]
            constructor
            · by_contra hc
              exact hr ⟨⟨hmin, hmax⟩, Or.inl (by omega)⟩
            · by_contra hc
              exact hr ⟨⟨hmin, hmax⟩, Or.inr (by omega)⟩
          · exact ih p h hmin hmax

theorem searchRemapKept_length_le (vid2docid : Int → Int) :
    ∀ slots seen, (searchRemapKept vid2docid slots seen).length ≤ slots.length := by
  intro slots
  induction slots with
  | nil => intro seen; exact Nat.le_refl 0
  | cons q rest ih =>
      intro seen
      by_cases hv : q.1 = -1
      · rw [searchRemapKept, if_pos hv]
        exact (ih seen).trans (Nat.le_succ _)
      · rw [searchRemapKept, if_neg hv]
        by_cases hs : vid2docid q.1 ∈ seen
        · rw [if_pos hs]
          exact (ih seen).trans (Nat.le_succ _)
        · rw [if_neg hs, List.length_cons]
          exact Nat.succ_le_succ (ih _)

theorem searchRemapKept_fst (vid2docid : Int → Int) :
    ∀ slots seen, (searchRemapKept vid2docid slots seen).map Prod.fst
      = firstOccurrences ((slots.filter (fun q => q.1 ≠ -1)).map (fun q => vid2docid q.1)) seen := by
  intro slots
  induction slots with
  | nil => intro seen; rfl
  | cons q rest ih =>
      intro seen
      by_cases hv : q.1 = -1
      · have hv' : ¬(q.1 ≠ -1) := by simp [hv]
        rw [searchRemapKept, if_pos hv]
        rw [List.filter_cons_of_neg (by simpa using hv')]
        exact ih seen
      · rw [searchRemapKept, if_neg hv]
        rw [List.filter_cons_of_pos (by simpa using hv), List.map_cons]
        by_cases hs : vid2docid q.1 ∈ seen
        · rw [if_pos hs, firstOccurrences, if_pos hs]
          exact ih seen
        · rw [if_neg hs, firstOccurrences, if_neg hs, List.map_cons]
          rw [ih]

theorem searchRemapKept_not_seen (vid2docid : Int → Int) :
    ∀ slots seen d, d ∈ (searchRemapKept vid2docid slots seen).map Prod.fst → d ∉ seen := by
  intro slots
  induction slots with
  | nil => intro seen d hd; cases hd
  | cons q rest ih =>
      intro seen d hd
      by_cases hv : q.1 = -1
      · rw [searchRemapKept, if_pos hv] at hd
        exact ih seen d hd
      · rw [searchRemapKept, if_neg hv] at hd
        by_cases hs : vid2docid q.1 ∈ seen
        · rw [if_pos hs] at hd
          exact ih seen d hd
        · rw [if_neg hs, List.map_cons] at hd
          rcases List.mem_cons.mp hd with h | h
          · intro hcon
            rw [h] at hcon
            exact hs hcon
          · intro hcon
            exact ih _ d h (List.mem_cons_of_mem _ hcon)

theorem searchRemapKept_nodup (vid2docid : Int → Int) :
    ∀ slots seen, ((searchRemapKept vid2docid slots seen).map Prod.fst).Nodup := by
  intro slots
  induction slots with
  | nil => intro seen; exact List.nodup_nil
  | cons q rest ih =>
      intro seen
      by_cases hv : q.1 = -1
      · rw [searchRemapKept, if_pos hv]
        exact ih seen
      · rw [searchRemapKept, if_neg hv]
        by_cases hs : vid2docid q.1 ∈ seen
        · rw [if_pos hs]
          exact ih seen
        · rw [if_neg hs, List.map_cons]
          refine List.nodup_cons.mpr ⟨?_, ih _⟩
          intro hmem
          exact searchRemapKept_not_seen vid2docid rest _ _ hmem (List.mem_cons_self _ _)

namespace GammaIVFPQIndex

theorem AddUpdatedVecToIndex_preserves (s : TickState) :
    (AddUpdatedVecToIndex s).2.compaction = s.compaction
  ∧ (AddUpdatedVecToIndex s).2.compactBucketNo = s.compactBucketNo
  ∧ (AddUpdatedVecToIndex s).2.compactedNum = s.compactedNum
  ∧ (AddUpdatedVecToIndex s).2.compactLog = s.compactLog
  ∧ (AddUpdatedVecToIndex s).2.indexedVecCount = s.indexedVecCount := by
  unfold AddUpdatedVecToIndex
  by_cases hq : (s.updatedQueue.take 20000).isEmpty <;> simp [hq]

theorem compactLoop_spec (indexed : Nat) (stored : Nat → Nat) :
    ∀ fuel bno readIdx, ∃ j, j ≤ fuel
      ∧ (compactLoop indexed stored fuel bno readIdx).2 = List.range' bno j
      ∧ (compactLoop indexed stored fuel bno readIdx).1 = bno + j
      ∧ (∀ t, t < j → stored (readIdx + t) ≤ indexed)
      ∧ (j = fuel ∨ indexed < stored (readIdx + j)) := by
  intro fuel
  induction fuel with
  | zero =>
      intro bno readIdx
      exact ⟨0, Nat.le_refl 0, rfl, by simp [compactLoop], by omega, Or.inl rfl⟩
  | succ fuel ih =>
      intro bno readIdx
      by_cases hbr : indexed < stored readIdx
      · refine ⟨0, Nat.zero_le _, ?_, ?_, by omega, Or.inr ?_⟩
        · simp [compactLoop, hbr]
        · simp [compactLoop, hbr]
        · simpa using hbr
      · obtain ⟨j, hj, h2, h1, hmon, hstop⟩ := ih (bno + 1) (readIdx + 1)
        refine ⟨j + 1, by omega, ?_, ?_, ?_, ?_⟩
        · simp only [compactLoop, if_neg hbr]
          rw [h2]
          rfl
        · simp only [compactLoop, if_neg hbr]
          rw [h1]
          omega
        · intro t ht
          cases t with
          | zero =>
              simpa using Nat.le_of_not_lt hbr
          | succ t' =>
              have h := hmon t' (by omega)
              rw [show readIdx + (t' + 1) = readIdx + 1 + t' from by omega]
              exact h
        · rcases hstop with h | h
          · exact Or.inl (by omega)
          · refine Or.inr ?_
            rw [show readIdx + (j + 1) = readIdx + 1 + j from by omega]
            exact h

theorem addAssignLoop_vid (keys : List Int) :
    ∀ vid, (addAssignLoop keys vid).2.1
      = vid + (keys.filter (fun k => decide (0 ≤ k))).length := by
  induction keys with
  | nil => intro vid; simp [addAssignLoop]
  | cons key rest ih =>
      intro vid
      by_cases hk : key < 0
      · have : ¬(0 ≤ key) := by omega
        simp [addAssignLoop, hk, this, ih]
      · have : 0 ≤ key := by omega
        simp [addAssignLoop, hk, this, ih]
        omega

theorem addAssignLoop_pairs (keys : List Int) :
    ∀ vid, ((addAssignLoop keys vid).2.2.all (fun e => decide (0 ≤ e.1))) = true := by
  induction keys with
  | nil => intro vid; rfl
  | cons key rest ih =>
      intro vid
      by_cases hk : key < 0
      · simp [addAssignLoop, hk, ih]
      · have h0 : 0 ≤ key := by omega
        simp [addAssignLoop, hk, ih, h0]

end GammaIVFPQIndex

/-! ## Claim theorems. -/

/-- Claim C1, counterexample to the claim as stated: in the direct
brute-force path (`search_impl`) with `min_dist = -1` and `max_dist = 5`,
`ck_dis = (min_dist >= 0 && max_dist >= 0)` is false, so the pair
`(vid 0, dis 100)` is placed into the query's result heap although the
range predicate rejects it (neither are both bounds `-1`, nor is
`min_dist ≥ 0`). -/
theorem range_filter_cex :
    searchImplKeeps (-1) 5 (fun _ => false) none (fun v => v) [(0, 100)] = [(0, 100)]
      ∧ ¬ rangeKeep (-1) 5 100 := by
  constructor
  · decide
  · decide

/-- Claim C1 (amended): every `(vid, dis)` pair placed into a final result
by the IVF-PQ rerank paths (`compute_dis`, has_rank true or false)
satisfies the range predicate; in the direct brute-force path
(`search_impl`) the bound check is applied only when `min_dist ≥ 0` and
`max_dist ≥ 0`, in which case every placed pair satisfies
`min_dist ≤ dis ≤ max_dist`. -/
theorem range_filter_spec (minDist maxDist : Int) (exactDis : Int → Int)
    (recallIds : List Int) (slots : List Pair) (i : Nat)
    (deleted : Int → Bool) (nr : Option (Int → Bool)) (vid2docid : Int → Int)
    (cands : List Pair) :
    (∀ p ∈ rankStagePush minDist maxDist exactDis recallIds,
        rangeKeep minDist maxDist p.2)
  ∧ (∀ w ∈ noRankWrites minDist maxDist slots i,
        rangeKeep minDist maxDist w.2.2)
  ∧ (∀ p ∈ searchImplKeeps minDist maxDist deleted nr vid2docid cands,
        0 ≤ minDist → 0 ≤ maxDist → minDist ≤ p.2 ∧ p.2 ≤ maxDist) :=
  ⟨rankStagePush_keeps minDist maxDist exactDis recallIds,
   noRankWrites_keeps minDist maxDist slots i,
   searchImplKeeps_keeps minDist maxDist deleted nr vid2docid cands⟩

theorem range_filter_spec_witness :
    rangeKeep 0 10 3 ∧ rangeKeep 0 10 7 ∧ ((0 : Int) ≤ 5 ∧ (5 : Int) ≤ 10) := by
  have h := range_filter_spec 0 10 (fun _ => 3) [4] [(2, 7)] 0
    (fun _ => false) none (fun v => v) [(1, 5)]
  refine ⟨?_, ?_, ?_⟩
  · exact h.1 (4, 3) (by decide)
  · exact h.2.1 (0, (2, 7)) (by decide)
  · exact h.2.2 (1, 5) (by decide) (by decide) (by decide)

/-- Claim C2: after `Search` returns, per query the result slots hold the
docids of the top-k vids resolved in order via `vid2docid_` with
first-occurrence dedup — so no docid occurs twice — and every unused slot
up to `topn` is padded with `(-1, -1)`. -/
theorem Search_remap_spec (vid2docid : Int → Int) (topn : Nat) (slots : List Pair)
    (hlen : slots.length = topn) :
    (searchRemap vid2docid topn slots).length = topn
  ∧ (searchRemapKept vid2docid slots []).map Prod.fst
      = firstOccurrences
          ((slots.filter (fun q => q.1 ≠ -1)).map (fun q => vid2docid q.1)) []
  ∧ ((searchRemapKept vid2docid slots []).map Prod.fst).Nodup
  ∧ (searchRemap vid2docid topn slots).drop (searchRemapKept vid2docid slots []).length
      = List.replicate (topn - (searchRemapKept vid2docid slots []).length) (-1, -1) := by
  have hle : (searchRemapKept vid2docid slots []).length ≤ topn := by
    rw [← hlen]
    exact searchRemapKept_length_le vid2docid slots []
  refine ⟨?_, searchRemapKept_fst vid2docid slots [],
    searchRemapKept_nodup vid2docid slots [], ?_⟩
  · unfold searchRemap
    rw [List.length_append, List.length_replicate]
    omega
  · unfold searchRemap
    rw [List.drop_left]

theorem Search_remap_spec_witness :
    (searchRemap (fun _ => 7) 3 [(4, 10), (5, 11), (-1, 9)]).length = 3
  ∧ ((searchRemapKept (fun _ => 7) [(4, 10), (5, 11), (-1, 9)] []).map Prod.fst).Nodup := by
  have h := Search_remap_spec (fun _ => 7) 3 [(4, 10), (5, 11), (-1, 9)] (by decide)
  exact ⟨h.1, h.2.2.1⟩

/-- Claim C3, counterexample to the claim as stated: the fixed index state
includes `max_codes`; with `max_codes = 1` the mode-0 probe loop stops
after the first list (C8) while mode 1 scans every list, so for the same
buckets and query the two parallel modes return different multisets of
`(docid, dist)` — a difference no tie-breaking can explain (the candidate
distances 3 and 5 are distinct). -/
theorem search_parallel_modes_cex :
    ([[(1, [((0 : Int), (5 : Int))])], [(1, [((1 : Int), (3 : Int))])]]
        : List (List Probe)).flatten
      = [(1, [((0 : Int), (5 : Int))]), (1, [((1 : Int), (3 : Int))])]
  ∧ ((searchPreassignedMode1 GMetric.l2 2
        [[(1, [(0, 5)])], [(1, [(1, 3)])]]).map (fun p => (p.1, p.2))
          : Multiset (Int × Int))
      ≠ ↑((searchPreassignedMode0 GMetric.l2 2 1
        [(1, [(0, 5)]), (1, [(1, 3)])]).map (fun p => (p.1, p.2))) := by
  constructor
  · rfl
  · decide

/-- Claim C3 (amended): with the scan limit disabled (`max_codes = 0` —
otherwise mode 0 may stop probing early, see C8), for a fixed trained
codebook, bitmap and bucket contents and the same query, the recall stage
of `search_preassigned` yields the same multiset of `(docid, dist)` under
`parallel_mode = 0` and under `parallel_mode = 1` for any partition of the
probes among threads, up to tie-breaking among equal distances (the heap
model breaks ties deterministically by vid). -/
theorem search_parallel_modes_agree (mt : GMetric) (recallNum : Nat)
    (vid2docid : Int → Int) (probes : List Probe) (parts : List (List Probe))
    (hpart : parts.flatten.Perm probes) :
    ((searchPreassignedMode1 mt recallNum parts).map
        (fun p => (vid2docid p.1, p.2)) : Multiset (Int × Int))
      = ↑((searchPreassignedMode0 mt recallNum 0 probes).map
        (fun p => (vid2docid p.1, p.2))) := by
  have hlist : searchPreassignedMode1 mt recallNum parts
      = searchPreassignedMode0 mt recallNum 0 probes := by
    rw [searchPreassignedMode1_eq]
    unfold searchPreassignedMode0
    rw [scanProbesMode0_no_limit probes 0]
    exact bestM_congr _ _ ((hpart.map Prod.snd).flatten)
  rw [hlist]

theorem search_parallel_modes_agree_witness :
    ((searchPreassignedMode1 GMetric.l2 2
        [[(1, [((0 : Int), (5 : Int))])], [(1, [((1 : Int), (3 : Int))])]]).map
        (fun p => (p.1, p.2)) : Multiset (Int × Int))
      = ↑((searchPreassignedMode0 GMetric.l2 2 0
        [(1, [(0, 5)]), (1, [(1, 3)])]).map (fun p => (p.1, p.2))) := by
  have h := search_parallel_modes_agree GMetric.l2 2 (fun v => v)
    [(1, [(0, 5)]), (1, [(1, 3)])] [[(1, [(0, 5)])], [(1, [(1, 3)])]] (by decide)
  simpa using h

/-- Claim C4: `Indexing()` returns an error exactly when the index is not
yet trained and the raw store holds fewer than 8192 vectors (8192 succeeds,
8191 fails); training reads the leading `min(count, 100000)` vectors
(`GetVectorHeader(0, num)`); when already trained it returns 0 and does not
retrain. -/
theorem Indexing_spec (isTrained : Bool) (vectorsCount : Nat) :
    ((GammaIVFPQIndex.Indexing isTrained vectorsCount).ret ≠ 0
        ↔ (isTrained = false ∧ vectorsCount < 8192))
  ∧ (GammaIVFPQIndex.Indexing false 8192).ret = 0
  ∧ (GammaIVFPQIndex.Indexing false 8191).ret ≠ 0
  ∧ (isTrained = false → 8192 ≤ vectorsCount →
      (GammaIVFPQIndex.Indexing isTrained vectorsCount).trainedRange
        = some (0, min vectorsCount 100000))
  ∧ GammaIVFPQIndex.Indexing true vectorsCount = ⟨0, true, none⟩ := by
  refine ⟨?_, by decide, by decide, ?_, by simp [GammaIVFPQIndex.Indexing]⟩
  · cases isTrained with
    | true => simp [GammaIVFPQIndex.Indexing]
    | false =>
        by_cases h : vectorsCount < 8192
        · simp [GammaIVFPQIndex.Indexing, h]
        · simp [GammaIVFPQIndex.Indexing, h]
  · intro ht hc
    subst ht
    have hlt : ¬ vectorsCount < 8192 := by omega
    have hmin : (if vectorsCount > 100000 then 100000 else vectorsCount)
        = min vectorsCount 100000 := by
      split_ifs with h100
      · omega
      · omega
    simp [GammaIVFPQIndex.Indexing, hlt, hmin]

theorem Indexing_spec_witness :
    (GammaIVFPQIndex.Indexing false 8192).ret = 0
  ∧ (GammaIVFPQIndex.Indexing false 200000).trainedRange = some (0, 100000) := by
  have h := Indexing_spec false 200000
  refine ⟨h.2.1, ?_⟩
  have h2 := h.2.2.2.1 rfl (by omega)
  simpa using h2

/-- Claim C5, counterexample to the claim as stated: with
`indexed_vec_count_ = 1`, an empty raw store, and one queued updated vid,
the tick returns the error `-1` but still performs the update drain —
`updated_num_` advances and the queued vid is handed to `Update` — so the
engine's state is not left unchanged. -/
theorem AddRTVecsToIndex_invariant_cex :
    (GammaIVFPQIndex.AddRTVecsToIndex
        ⟨fun _ => 0, fun _ => 0, fun _ => true, fun _ => 0, false, 1⟩
        ⟨1, false, 0, 0, 0, [7], [], []⟩).1 = -1
  ∧ (GammaIVFPQIndex.AddRTVecsToIndex
        ⟨fun _ => 0, fun _ => 0, fun _ => true, fun _ => 0, false, 1⟩
        ⟨1, false, 0, 0, 0, [7], [], []⟩).2.updatedNum = 1
  ∧ (GammaIVFPQIndex.AddRTVecsToIndex
        ⟨fun _ => 0, fun _ => 0, fun _ => true, fun _ => 0, false, 1⟩
        ⟨1, false, 0, 0, 0, [7], [], []⟩).2.updateLog = [7] := by
  refine ⟨by decide, by decide, by decide⟩

/-- Claim C5 (amended): if `indexed_vec_count_` exceeds the raw store's
count at tick entry, `AddRTVecsToIndex` returns `-1` and performs no
ingestion and no compaction — `indexed_vec_count_`, the compaction flag,
cursor, counter and log are unchanged — but the update drain still runs:
up to 20000 queued vids are drained to `Update` and `updated_num_`
advances by their number. -/
theorem AddRTVecsToIndex_invariant_amended (env : GammaIVFPQIndex.TickEnv)
    (s : GammaIVFPQIndex.TickState) (h : env.stored 0 < s.indexedVecCount) :
    (GammaIVFPQIndex.AddRTVecsToIndex env s).1 = -1
  ∧ (GammaIVFPQIndex.AddRTVecsToIndex env s).2.indexedVecCount = s.indexedVecCount
  ∧ (GammaIVFPQIndex.AddRTVecsToIndex env s).2.compaction = s.compaction
  ∧ (GammaIVFPQIndex.AddRTVecsToIndex env s).2.compactBucketNo = s.compactBucketNo
  ∧ (GammaIVFPQIndex.AddRTVecsToIndex env s).2.compactedNum = s.compactedNum
  ∧ (GammaIVFPQIndex.AddRTVecsToIndex env s).2.compactLog = s.compactLog
  ∧ (GammaIVFPQIndex.AddRTVecsToIndex env s).2.updatedNum
      = s.updatedNum + (s.updatedQueue.take 20000).length
  ∧ (GammaIVFPQIndex.AddRTVecsToIndex env s).2.updatedQueue = s.updatedQueue.drop 20000
  ∧ (GammaIVFPQIndex.AddRTVecsToIndex env s).2.updateLog
      = s.updateLog ++ s.updatedQueue.take 20000 := by
  have hmain : GammaIVFPQIndex.tickMain env s = (-1, s) := by
    unfold GammaIVFPQIndex.tickMain
    rw [if_pos h]
  unfold GammaIVFPQIndex.AddRTVecsToIndex
  rw [hmain]
  unfold GammaIVFPQIndex.AddUpdatedVecToIndex
  by_cases hq : (s.updatedQueue.take 20000).isEmpty
  · have hqnil : s.updatedQueue.take 20000 = [] := List.isEmpty_iff.mp hq
    have hqueue : s.updatedQueue = [] := by
      rcases List.take_eq_nil_iff.mp hqnil with h20 | hnil
      · exact absurd h20 (by omega)
      · exact hnil
    simp [hq, hqueue]
  · simp [hq]

theorem AddRTVecsToIndex_invariant_amended_witness :
    (GammaIVFPQIndex.AddRTVecsToIndex
        ⟨fun _ => 0, fun _ => 0, fun _ => true, fun _ => 0, false, 1⟩
        ⟨2, false, 0, 0, 0, [9], [], []⟩).1 = -1
  ∧ (GammaIVFPQIndex.AddRTVecsToIndex
        ⟨fun _ => 0, fun _ => 0, fun _ => true, fun _ => 0, false, 1⟩
        ⟨2, false, 0, 0, 0, [9], [], []⟩).2.updatedNum
      = 0 + (([9] : List Int).take 20000).length := by
  have h := AddRTVecsToIndex_invariant_amended
    ⟨fun _ => 0, fun _ => 0, fun _ => true, fun _ => 0, false, 1⟩
    ⟨2, false, 0, 0, 0, [9], [], []⟩ (by decide)
  exact ⟨h.1, h.2.2.2.2.2.2.1⟩

/-- Claim C6: during a compaction tick (`indexed_vec_count_` equals the
stored count and compaction is active or becomes active), buckets are
compacted one at a time in increasing order starting at
`compact_bucket_no_`; the tick compacts no further bucket as soon as a
`GetVectorNum()` read exceeds `indexed_vec_count_`; and when the cursor
reaches `nlist` the tick resets `compaction_` to false and the cursor
to 0, otherwise compaction stays active with the cursor at the first
uncompacted bucket. -/
theorem AddRTVecsToIndex_compaction_spec (env : GammaIVFPQIndex.TickEnv)
    (s : GammaIVFPQIndex.TickState)
    (heq : s.indexedVecCount = env.stored 0)
    (hact : (s.compaction || env.compactable) = true)
    (hcur : s.compactBucketNo ≤ env.nlist) :
    ∃ j, s.compactBucketNo + j ≤ env.nlist
      ∧ (GammaIVFPQIndex.AddRTVecsToIndex env s).2.compactLog
          = s.compactLog ++ List.range' s.compactBucketNo j
      ∧ (∀ t, t < j → env.stored (1 + t) ≤ s.indexedVecCount)
      ∧ (s.compactBucketNo + j = env.nlist
          ∨ s.indexedVecCount < env.stored (1 + j))
      ∧ (s.compactBucketNo + j = env.nlist →
          (GammaIVFPQIndex.AddRTVecsToIndex env s).2.compaction = false
          ∧ (GammaIVFPQIndex.AddRTVecsToIndex env s).2.compactBucketNo = 0)
      ∧ (s.compactBucketNo + j ≠ env.nlist →
          (GammaIVFPQIndex.AddRTVecsToIndex env s).2.compaction = true
          ∧ (GammaIVFPQIndex.AddRTVecsToIndex env s).2.compactBucketNo
              = s.compactBucketNo + j) := by
  obtain ⟨j, hj, h2, h1, hmon, hstop⟩ := GammaIVFPQIndex.compactLoop_spec
    s.indexedVecCount env.stored (env.nlist - s.compactBucketNo) s.compactBucketNo 1
  have hlt : ¬ env.stored 0 < s.indexedVecCount := by omega
  have hrun : GammaIVFPQIndex.compactRun env s
      = GammaIVFPQIndex.compactLoop s.indexedVecCount env.stored
          (env.nlist - s.compactBucketNo) s.compactBucketNo 1 := by
    unfold GammaIVFPQIndex.compactRun
    rw [if_pos hact]
  have hrun1 : (GammaIVFPQIndex.compactRun env s).1 = s.compactBucketNo + j := by
    rw [hrun, h1]
  have hrun2 : (GammaIVFPQIndex.compactRun env s).2
      = List.range' s.compactBucketNo j := by
    rw [hrun, h2]
  have hmain : GammaIVFPQIndex.tickMain env s
      = (0, GammaIVFPQIndex.compactionTick env s) := by
    unfold GammaIVFPQIndex.tickMain
    rw [if_neg hlt, if_pos heq]
  have hres : (GammaIVFPQIndex.AddRTVecsToIndex env s).2
      = (GammaIVFPQIndex.AddUpdatedVecToIndex (GammaIVFPQIndex.compactionTick env s)).2 := by
    unfold GammaIVFPQIndex.AddRTVecsToIndex
    rw [hmain]
  have hpres := GammaIVFPQIndex.AddUpdatedVecToIndex_preserves
    (GammaIVFPQIndex.compactionTick env s)
  refine ⟨j, by omega, ?_, hmon, ?_, ?_, ?_⟩
  · rw [hres, hpres.2.2.2.1]
    unfold GammaIVFPQIndex.compactionTick
    by_cases hend : (GammaIVFPQIndex.compactRun env s).1 = env.nlist
    · rw [if_pos hend]
      rw [show ({ s with
          compaction := false,
          compactBucketNo := 0,
          compactedNum := s.compactedNum
            + (((GammaIVFPQIndex.compactRun env s).2.map env.removed).sum),
          compactLog := s.compactLog ++ (GammaIVFPQIndex.compactRun env s).2
          : GammaIVFPQIndex.TickState }).compactLog
        = s.compactLog ++ (GammaIVFPQIndex.compactRun env s).2 from rfl]
      rw [hrun2]
    · rw [if_neg hend]
      rw [show ({ s with
          compaction := s.compaction || env.compactable,
          compactBucketNo := (GammaIVFPQIndex.compactRun env s).1,
          compactedNum := s.compactedNum
            + (((GammaIVFPQIndex.compactRun env s).2.map env.removed).sum),
          compactLog := s.compactLog ++ (GammaIVFPQIndex.compactRun env s).2
          : GammaIVFPQIndex.TickState }).compactLog
        = s.compactLog ++ (GammaIVFPQIndex.compactRun env s).2 from rfl]
      rw [hrun2]
  · rcases hstop with h | h
    · exact Or.inl (by omega)
    · exact Or.inr h
  · intro hnl
    have hend : (GammaIVFPQIndex.compactRun env s).1 = env.nlist := by
      rw [hrun1]
      exact hnl
    constructor
    · rw [hres, hpres.1]
      unfold GammaIVFPQIndex.compactionTick
      rw [if_pos hend]
    · rw [hres, hpres.2.1]
      unfold GammaIVFPQIndex.compactionTick
      rw [if_pos hend]
  · intro hnl
    have hend : ¬ (GammaIVFPQIndex.compactRun env s).1 = env.nlist := by
      rw [hrun1]
      exact hnl
    constructor
    · rw [hres, hpres.1]
      unfold GammaIVFPQIndex.compactionTick
      rw [if_neg hend]
      exact hact
    · rw [hres, hpres.2.1]
      unfold GammaIVFPQIndex.compactionTick
      rw [if_neg hend]
      exact hrun1

theorem AddRTVecsToIndex_compaction_spec_witness :
    ∃ j, (0 : Nat) + j ≤ 2
      ∧ (GammaIVFPQIndex.AddRTVecsToIndex
            ⟨fun _ => 5, fun _ => 0, fun _ => true, fun _ => 3, true, 2⟩
            ⟨5, true, 0, 0, 0, [], [], []⟩).2.compactLog
          = ([] : List Nat) ++ List.range' 0 j
      ∧ (∀ t, t < j → (fun _ => (5 : Nat)) (1 + t) ≤ 5)
      ∧ ((0 : Nat) + j = 2 ∨ (5 : Nat) < (fun _ => (5 : Nat)) (1 + j))
      ∧ ((0 : Nat) + j = 2 →
          (GammaIVFPQIndex.AddRTVecsToIndex
            ⟨fun _ => 5, fun _ => 0, fun _ => true, fun _ => 3, true, 2⟩
            ⟨5, true, 0, 0, 0, [], [], []⟩).2.compaction = false
          ∧ (GammaIVFPQIndex.AddRTVecsToIndex
            ⟨fun _ => 5, fun _ => 0, fun _ => true, fun _ => 3, true, 2⟩
            ⟨5, true, 0, 0, 0, [], [], []⟩).2.compactBucketNo = 0)
      ∧ ((0 : Nat) + j ≠ 2 →
          (GammaIVFPQIndex.AddRTVecsToIndex
            ⟨fun _ => 5, fun _ => 0, fun _ => true, fun _ => 3, true, 2⟩
            ⟨5, true, 0, 0, 0, [], [], []⟩).2.compaction = true
          ∧ (GammaIVFPQIndex.AddRTVecsToIndex
            ⟨fun _ => 5, fun _ => 0, fun _ => true, fun _ => 3, true, 2⟩
            ⟨5, true, 0, 0, 0, [], [], []⟩).2.compactBucketNo = (0 : Nat) + j) :=
  AddRTVecsToIndex_compaction_spec
    ⟨fun _ => 5, fun _ => 0, fun _ => true, fun _ => 3, true, 2⟩
    ⟨5, true, 0, 0, 0, [], [], []⟩ (by decide) (by decide) (by decide)

/-- Claim C7: `Add(n, X)` is atomic with respect to the counter: when
`AddKeys` rejects the batch, `Add` returns failure and
`indexed_vec_count_` is unchanged; when it succeeds,
`indexed_vec_count_` advances by exactly the number of inputs whose coarse
assignment is non-negative, and every grouped entry (each receiving a vid)
has a non-negative key — inputs assigned `-1` receive no vid. -/
theorem Add_counter_spec (indexedVecCount : Nat) (keys : List Int) (addKeysOk : Bool) :
    (GammaIVFPQIndex.Add indexedVecCount keys addKeysOk).2
      = (if addKeysOk then
          indexedVecCount + (keys.filter (fun k => decide (0 ≤ k))).length
         else indexedVecCount)
  ∧ (GammaIVFPQIndex.Add indexedVecCount keys addKeysOk).1 = addKeysOk
  ∧ ((GammaIVFPQIndex.addAssignLoop keys indexedVecCount).2.2.all
        (fun e => decide (0 ≤ e.1))) = true := by
  refine ⟨?_, ?_, GammaIVFPQIndex.addAssignLoop_pairs keys indexedVecCount⟩
  · unfold GammaIVFPQIndex.Add
    cases addKeysOk <;> simp [GammaIVFPQIndex.addAssignLoop_vid]
  · unfold GammaIVFPQIndex.Add
    cases addKeysOk <;> simp

/-- Claim C8: in the mode-0 probe loop, once the cumulative number of
scanned codes exceeds `max_codes` (when `max_codes > 0`), no further
inverted list is scanned for the query; in mode 1 the loop carries no
`max_codes` test and all `nprobe` lists are scanned. -/
theorem search_max_codes_spec (maxCodes : Nat) (probes : List Probe) :
    (∀ j, 0 < maxCodes → maxCodes < ((probes.take j).map Prod.fst).sum →
        (scanProbesMode0 maxCodes 0 probes).2 ≤ j)
  ∧ (scanProbesMode1 probes).2 = probes.length := by
  constructor
  · intro j h1 h2
    exact scanProbesMode0_count_le maxCodes (by omega) probes 0 j (by omega) (by omega)
  · rw [scanProbesMode1_eq]

theorem search_max_codes_spec_witness :
    (scanProbesMode0 3 0 [((5 : Nat), ([] : List Pair)), (2, [])]).2 ≤ 1
  ∧ (scanProbesMode1 [((5 : Nat), ([] : List Pair)), (2, [])]).2 = 2 := by
  have h := search_max_codes_spec 3 [(5, []), (2, [])]
  exact ⟨h.1 1 (by decide) (by decide), h.2⟩

/-- Claim C9 is violated by the code (an out-of-bounds write): in the
`has_rank == false` path with `topn = 1` and `recall_num = 2`, two
candidates surviving the range filter produce a write at slot index 1,
which is not strictly below `topn` — the second write lands outside the
`k` slots allocated to the query. -/
theorem noRankWrites_overflow :
    noRankWrites (-1) (-1) [(0, 3), (1, 4)] 0 = [(0, (0, 3)), (1, (1, 4))]
  ∧ ¬ (∀ w ∈ noRankWrites (-1) (-1) [(0, 3), (1, 4)] 0, w.1 < 1) := by
  constructor
  · decide
  · decide

/-- Claim C10: `Table::Add` returns a nonzero error and leaves the table
completely unchanged — no key mapping inserted, no record appended,
`last_docid_` untouched — whenever the supplied field count differs from
the schema's or the key is empty; both checks precede any mutation. -/
theorem Table_Add_spec (keyToInt : String → Int) (t : Table.TableState)
    (key : String) (fields : List String) (docid : Int)
    (h : fields.length ≠ t.fieldCount ∨ key.length = 0) :
    (Table.Add keyToInt t key fields docid).1 ≠ 0
  ∧ (Table.Add keyToInt t key fields docid).2 = t := by
  unfold Table.Add
  rcases h with h | h
  · rw [if_pos h]
    exact ⟨by simp, rfl⟩
  · by_cases h2 : fields.length ≠ t.fieldCount
    · rw [if_pos h2]
      exact ⟨by simp, rfl⟩
    · rw [if_neg h2, if_pos h]
      exact ⟨by simp, rfl⟩

theorem Table_Add_spec_witness :
    (Table.Add (fun _ => 0) ⟨[], [], -1, 2⟩ "" ["a", "b"] 5).1 ≠ 0
  ∧ (Table.Add (fun _ => 0) ⟨[], [], -1, 2⟩ "" ["a", "b"] 5).2 = ⟨[], [], -1, 2⟩ :=
  Table_Add_spec (fun _ => 0) ⟨[], [], -1, 2⟩ "" ["a", "b"] 5 (by decide)

end Gamma
